import Mathlib

/-!
Shallow embedding of the `rbaynes/image_cache` repository.

Two source modules are modelled:

* `src/image_cache.py` — a simple (unbounded) string-keyed cache of
  per-URL header/body values, plus the `FileFetchAndCache` fetcher that
  performs HTTP conditional requests against it.  The HTTP transport and
  the `hashlib.md5` digest are external collaborators: the transport's
  answer is a `Response` value passed in explicitly, and the digest is a
  function parameter.

* `src/utils/cache.py` — the bounded LRU cache with byte accounting.

Python dictionaries are modelled as association lists with unique keys
(insertion order preserved, as in Python 3.6+); `None` values that the
simple cache may store are modelled by a dedicated `PyVal` constructor.
-/

/-- Association-list lookup: first binding of key `k`, mirroring a Python
dict read (dict keys are unique, so first = only). -/
def alGet {α : Type} (l : List (String × α)) (k : String) : Option α :=
  match l with
  | [] => none
  | (k', v) :: t => if k' = k then some v else alGet t k

/-- Association-list write, mirroring `d[k] = v` on a Python dict:
replaces the binding in place if present, otherwise appends it. -/
def alSet {α : Type} (l : List (String × α)) (k : String) (v : α) :
    List (String × α) :=
  match l with
  | [] => [(k, v)]
  | (k', v') :: t => if k' = k then (k, v) :: t else (k', v') :: alSet t k v

/-- Association-list deletion, mirroring `d.pop(k)` on a Python dict. -/
def alRemove {α : Type} (l : List (String × α)) (k : String) :
    List (String × α) :=
  match l with
  | [] => []
  | (k', v') :: t => if k' = k then t else (k', v') :: alRemove t k

/-- Total size of the values of an association list under a size
function `sz`; used for the byte accounting of the bounded cache. -/
def alBytes {α : Type} (sz : α → Int) (l : List (String × α)) : Int :=
  (l.map (fun p => sz p.2)).sum

namespace ImageCache

/-- A Python value as stored by the simple cache of `image_cache.py`:
`resp.getheader` may return `None`, and `Cache.set` stores it as-is, so
the stored values are `None`, header strings, or byte strings. -/
inductive PyVal : Type where
  | none : PyVal
  | str : String → PyVal
  | bytes : List Nat → PyVal
deriving DecidableEq

/-- The simple cache of `image_cache.py`: `{URL: {subkey: value}}`. -/
def SCache : Type := List (String × List (String × PyVal))

instance : DecidableEq SCache := by
  unfold SCache
  infer_instance

/-- `Cache.set` of `image_cache.py` (lines 47–51): unconditionally store
`value` — including a stored `None` — under `(key, subkey)`. -/
def SCache.set (c : SCache) (key subkey : String) (value : PyVal) : SCache :=
  match alGet c key with
  | Option.none => alSet c key [(subkey, value)]
  | Option.some entry => alSet c key (alSet entry subkey value)

/-- `Cache.get` of `image_cache.py` (lines 53–59): returns `None` when
the key or subkey is missing, which is indistinguishable from a stored
`None`; the fetcher only ever tests the result against `None`. -/
def SCache.get (c : SCache) (key subkey : String) : PyVal :=
  match alGet c key with
  | Option.none => PyVal.none
  | Option.some entry => (alGet entry subkey).getD PyVal.none

/-- The transport's answer, as consumed by the fetcher: a status code,
the two response headers it reads (`None` when absent), and the body
that `resp.read()` would return on a 200. -/
structure Response : Type where
  status : Nat
  etag : Option String
  lastModified : Option String
  body : List Nat

/-- `resp.getheader` yields `None` or a string; this is the value the
fetcher passes straight to `Cache.set`. -/
def pyOfHeader : Option String → PyVal
  | Option.none => PyVal.none
  | Option.some s => PyVal.str s

/-- Everything observable about one call to `FileFetchAndCache.get`:
the conditional headers attached to the outgoing request, the cache
state after the call, and the returned
`(success, from_cache, file_bytes)` triple. -/
structure GetResult : Type where
  requestHeaders : List (String × PyVal)
  cache : SCache
  success : Bool
  fromCache : Bool
  fileBytes : PyVal
deriving DecidableEq

/-- Lines 95–101 of `image_cache.py`: the conditional headers attached
to the outgoing request — both or neither, depending on whether both
cached validators are non-`None`. -/
def FileFetchAndCache.requestHeadersFor (cache : SCache) (URL : String) :
    List (String × PyVal) :=
  let etag := SCache.get cache URL "ETag"
  let last_mod := SCache.get cache URL "Last-Modified"
  if etag ≠ PyVal.none ∧ last_mod ≠ PyVal.none then
    [("If-None-Match", etag), ("If-Modified-Since", last_mod)]
  else []

/-- `FileFetchAndCache.get` of `image_cache.py` (lines 85–133).  `md5`
stands for the external `hashlib` digest, `resp` for the transport's
answer; `host` is only used to open the connection and does not affect
the modelled state. -/
def FileFetchAndCache.get (md5 : List Nat → List Nat) (cache : SCache)
    (host URL : String) (resp : Response) : GetResult :=
  let _ := host
  let requestHeaders := FileFetchAndCache.requestHeadersFor cache URL
  let cache1 := SCache.set cache URL "ETag" (pyOfHeader resp.etag)
  let cache2 := SCache.set cache1 URL "Last-Modified"
      (pyOfHeader resp.lastModified)
  if resp.status = 200 then
    let file_bytes := resp.body
    let cache3 := SCache.set cache2 URL "file_bytes" (PyVal.bytes file_bytes)
    let file_hash := md5 file_bytes
    let cache4 := SCache.set cache3 URL "file_hash" (PyVal.bytes file_hash)
    ⟨requestHeaders, cache4, true, false, PyVal.bytes file_bytes⟩
  else if resp.status = 304 then
    let file_bytes := SCache.get cache2 URL "file_bytes"
    let _ := SCache.get cache2 URL "file_hash"
    ⟨requestHeaders, cache2, true, true, file_bytes⟩
  else
    ⟨requestHeaders, cache2, false, false, PyVal.none⟩

end ImageCache

namespace Utils

/-- One cached entry of the bounded cache: `{subkey: value}` where the
values are opaque byte strings (only their lengths matter). -/
def Entry : Type := List (String × List Nat)

instance : DecidableEq Entry := by
  unfold Entry
  infer_instance

/-- Byte size of one entry: the sum of the lengths of its values, the
quantity `__check_size_and_evict` recovers on eviction. -/
def entryBytes (e : Entry) : Int :=
  alBytes (fun v => (v.length : Int)) e

/-- Total bytes of all values in the cache dict (keys are not counted,
as in the source). -/
def cacheBytes (l : List (String × Entry)) : Int :=
  alBytes entryBytes l

/-- The bounded cache of `src/utils/cache.py`: the `{key: {subkey:
value}}` store, the LRU deque (head = most recently used, last = least
recently used), and the byte budget/usage counters.  The source keeps
the dict as class-level state shared by all instances; a single
instance starting from an empty dict is modelled. -/
structure Cache : Type where
  cache : List (String × Entry)
  lru : List String
  max_bytes : Int
  current_bytes : Int
deriving DecidableEq

/-- `Cache.__init__` (lines 20–23): no validation of `max_bytes`. -/
def Cache.init (max_bytes : Int := 200 * 1024) : Cache :=
  ⟨[], [], max_bytes, 0⟩

/-- `Cache.clear` (lines 47–50). -/
def Cache.clear (c : Cache) : Cache :=
  ⟨[], [], c.max_bytes, 0⟩

/-- `Cache.__remove_from_LRU` (lines 78–82): remove the key's (single)
occurrence from the deque if present. -/
def Cache.remove_from_LRU (c : Cache) (key : String) : Cache :=
  { c with lru := c.lru.erase key }

/-- `Cache.__add_head_to_LRU` (lines 85–89): move the key to the
most-recently-used (front) position. -/
def Cache.add_head_to_LRU (c : Cache) (key : String) : Cache :=
  let c' := c.remove_from_LRU key
  { c' with lru := key :: c'.lru }

/-- `Cache.__get_LRU` (lines 92–96): pop and return the key at the tail
of the deque, or `None` if the deque is empty. -/
def Cache.get_LRU (c : Cache) : Option String × Cache :=
  match c.lru.getLast? with
  | Option.none => (Option.none, c)
  | Option.some k => (Option.some k, { c with lru := c.lru.dropLast })

/-- `Cache.__check_size_and_evict` (lines 101–122).  In the source the
lookup `self.__cache[lru]` cannot fail because the deque only holds
cached keys; a missing key is mapped to the empty entry here. -/
def Cache.check_size_and_evict (c : Cache) (value_to_add : List Nat) : Cache :=
  if c.current_bytes + value_to_add.length < c.max_bytes then c
  else
    match c.get_LRU with
    | (Option.none, c') => c'
    | (Option.some lru_key, c') =>
      let recovered_bytes := entryBytes ((alGet c'.cache lru_key).getD [])
      let c'' := { c' with
        current_bytes := c'.current_bytes - recovered_bytes,
        cache := alRemove c'.cache lru_key }
      c''.remove_from_LRU lru_key

/-- `Cache.set` (lines 53–69).  A `None` value is a silent no-op;
otherwise evict if needed, subtract an overwritten value's bytes, store
the value, add its bytes and move the key to the front of the LRU. -/
def Cache.set (c : Cache) (key subkey : String) (value : Option (List Nat)) :
    Cache :=
  match value with
  | Option.none => c
  | Option.some v =>
    let c1 := c.check_size_and_evict v
    let c2 :=
      match alGet c1.cache key with
      | Option.none => { c1 with cache := alSet c1.cache key [(subkey, v)] }
      | Option.some entry =>
        match alGet entry subkey with
        | Option.none =>
          { c1 with cache := alSet c1.cache key (alSet entry subkey v) }
        | Option.some old =>
          { c1 with
            cache := alSet c1.cache key (alSet entry subkey v),
            current_bytes := c1.current_bytes - old.length }
    let c3 := { c2 with current_bytes := c2.current_bytes + v.length }
    c3.add_head_to_LRU key

/-- `Cache.get` (lines 72–79): on a hit move the key to the front of
the LRU and return the value; a miss changes nothing. -/
def Cache.get (c : Cache) (key subkey : String) :
    Option (List Nat) × Cache :=
  match alGet c.cache key with
  | Option.none => (Option.none, c)
  | Option.some entry =>
    match alGet entry subkey with
    | Option.none => (Option.none, c)
    | Option.some v => (Option.some v, c.add_head_to_LRU key)

/-- One public operation on the bounded cache. -/
inductive Op : Type where
  | set (key subkey : String) (value : Option (List Nat))
  | get (key subkey : String)
  | clear
deriving DecidableEq

/-- Run one operation, keeping only the state. -/
def applyOp (c : Cache) : Op → Cache
  | Op.set k sk v => c.set k sk v
  | Op.get k sk => (c.get k sk).2
  | Op.clear => c.clear

/-- Run a sequence of operations from a given state. -/
def applyOps (c : Cache) (ops : List Op) : Cache :=
  ops.foldl applyOp c

/-- Does running `op` in state `c` count as an access to key `a`?  A
`set` with a non-`None` value always moves its key to the front; a
`get` does so exactly on a hit; misses, `None`-sets and `clear` access
nothing. -/
def opAccessesKey (c : Cache) (op : Op) (a : String) : Bool :=
  match op with
  | Op.set k _ v => decide (k = a) && v.isSome
  | Op.get k sk => decide (k = a) && ((c.get k sk).1).isSome
  | Op.clear => false

/-- `noAccessDuring c ops a`: running `ops` from `c` never accesses key
`a` at any intermediate state. -/
def noAccessDuring (c : Cache) (ops : List Op) (a : String) : Bool :=
  match ops with
  | [] => true
  | op :: t => !opAccessesKey c op a && noAccessDuring (applyOp c op) t a

/-- The keys of an association list, in order. -/
def alKeys {α : Type} (l : List (String × α)) : List String :=
  l.map Prod.fst

/-- Well-formedness of a reachable bounded-cache state: the dict has no
duplicate keys, the LRU deque has no duplicates, the deque holds exactly
the cached keys, and `current_bytes` is the total size of all stored
values. -/
def Inv (c : Cache) : Prop :=
  (alKeys c.cache).Nodup ∧ c.lru.Nodup ∧
    (∀ a : String, a ∈ alKeys c.cache ↔ a ∈ c.lru) ∧
    c.current_bytes = cacheBytes c.cache

end Utils

/-! ### Association-list lemmas -/

theorem alGet_alSet_self {α : Type} (l : List (String × α)) (k : String)
    (v : α) : alGet (alSet l k v) k = Option.some v := by
  induction l with
  | nil => simp [alGet, alSet]
  | cons p t ih =>
    cases p with
    | mk a b =>
      by_cases h : a = k
      · simp [alSet, alGet, h]
      · simp [alSet, alGet, h, ih]

theorem alGet_alSet_ne {α : Type} (l : List (String × α)) (k k' : String)
    (v : α) (h : k' ≠ k) : alGet (alSet l k v) k' = alGet l k' := by
  induction l with
  | nil => simp [alGet, alSet, Ne.symm h]
  | cons p t ih =>
    cases p with
    | mk a b =>
      by_cases ha : a = k
      · subst ha
        simp [alSet, alGet, Ne.symm h]
      · by_cases ha' : a = k' <;> simp [alSet, alGet, ha, ha', h, ih]

theorem alGet_alRemove_ne {α : Type} (l : List (String × α)) (k k' : String)
    (h : k' ≠ k) : alGet (alRemove l k) k' = alGet l k' := by
  induction l with
  | nil => rfl
  | cons p t ih =>
    cases p with
    | mk a b =>
      by_cases ha : a = k
      · subst ha
        simp [alRemove, alGet, Ne.symm h]
      · by_cases ha' : a = k' <;> simp [alRemove, alGet, ha, ha', h, ih]

theorem alBytes_nil {α : Type} (sz : α → Int) : alBytes sz [] = 0 := rfl

theorem alBytes_cons {α : Type} (sz : α → Int) (p : String × α)
    (t : List (String × α)) : alBytes sz (p :: t) = sz p.2 + alBytes sz t := by
  simp [alBytes]

theorem alBytes_alSet {α : Type} (sz : α → Int) (l : List (String × α))
    (k : String) (v : α) :
    alBytes sz (alSet l k v) =
      alBytes sz l + sz v - ((alGet l k).map sz).getD 0 := by
  induction l with
  | nil => simp [alSet, alGet, alBytes]
  | cons p t ih =>
    cases p with
    | mk a b =>
      by_cases h : a = k
      · subst h
        simp [alSet, alGet, alBytes_cons]
        ring
      · simp [alSet, alGet, alBytes_cons, h, ih]
        ring

theorem alBytes_alRemove {α : Type} (sz : α → Int) (l : List (String × α))
    (k : String) :
    alBytes sz (alRemove l k) =
      alBytes sz l - ((alGet l k).map sz).getD 0 := by
  induction l with
  | nil => simp [alRemove, alGet, alBytes]
  | cons p t ih =>
    cases p with
    | mk a b =>
      by_cases h : a = k
      · subst h
        simp [alRemove, alGet, alBytes_cons]
      · simp [alRemove, alGet, alBytes_cons, h, ih]
        ring

theorem alKeys_nil {α : Type} : Utils.alKeys ([] : List (String × α)) = [] :=
  rfl

theorem alKeys_cons {α : Type} (p : String × α) (t : List (String × α)) :
    Utils.alKeys (p :: t) = p.1 :: Utils.alKeys t := rfl

theorem alGet_eq_none_iff {α : Type} (l : List (String × α)) (k : String) :
    alGet l k = Option.none ↔ k ∉ Utils.alKeys l := by
  induction l with
  | nil => simp [alGet, alKeys_nil]
  | cons p t ih =>
    cases p with
    | mk a b =>
      rw [alKeys_cons]
      by_cases h : a = k
      · simp [alGet, h]
      · simp [alGet, h, Ne.symm h, ih]

theorem alKeys_alSet_mem {α : Type} (l : List (String × α)) (k : String)
    (v : α) (h : k ∈ Utils.alKeys l) :
    Utils.alKeys (alSet l k v) = Utils.alKeys l := by
  induction l with
  | nil => simp [alKeys_nil] at h
  | cons p t ih =>
    cases p with
    | mk a b =>
      rw [alKeys_cons] at h
      by_cases ha : a = k
      · subst ha
        simp [alSet, alKeys_cons]
      · have h' : k ∈ Utils.alKeys t := by
          rcases List.mem_cons.mp h with h | h
          · exact absurd h.symm ha
          · exact h
        simp only [alSet, if_neg ha, alKeys_cons, ih h']

theorem alKeys_alSet_not_mem {α : Type} (l : List (String × α)) (k : String)
    (v : α) (h : k ∉ Utils.alKeys l) :
    Utils.alKeys (alSet l k v) = Utils.alKeys l ++ [k] := by
  induction l with
  | nil => simp [alSet, alKeys_nil, alKeys_cons]
  | cons p t ih =>
    cases p with
    | mk a b =>
      rw [alKeys_cons] at h
      have ha : a ≠ k := fun hh => h (hh ▸ List.mem_cons_self a _)
      have h' : k ∉ Utils.alKeys t := fun hh => h (List.mem_cons_of_mem _ hh)
      simp only [alSet, if_neg ha, alKeys_cons, ih h', List.cons_append]

theorem alKeys_alRemove_sublist {α : Type} (l : List (String × α))
    (k : String) :
    List.Sublist (Utils.alKeys (alRemove l k)) (Utils.alKeys l) := by
  induction l with
  | nil => simp [alRemove]
  | cons p t ih =>
    cases p with
    | mk a b =>
      by_cases h : a = k
      · simp only [alRemove, if_pos h, alKeys_cons]
        exact List.sublist_cons_self a (Utils.alKeys t)
      · simp only [alRemove, if_neg h, alKeys_cons]
        exact List.Sublist.cons₂ a ih

theorem mem_alKeys_alRemove {α : Type} (l : List (String × α)) (k a : String)
    (h : a ≠ k) : a ∈ Utils.alKeys (alRemove l k) ↔ a ∈ Utils.alKeys l := by
  induction l with
  | nil => simp [alRemove]
  | cons p t ih =>
    cases p with
    | mk x b =>
      by_cases hx : x = k
      · subst hx
        simp only [alRemove, if_pos rfl, alKeys_cons, List.mem_cons]
        constructor
        · exact Or.inr
        · rintro (rfl | hm)
          · exact absurd rfl h
          · exact hm
      · simp only [alRemove, if_neg hx, alKeys_cons, List.mem_cons, ih]

theorem not_mem_alKeys_alRemove {α : Type} (l : List (String × α))
    (k : String) (hnd : (Utils.alKeys l).Nodup) :
    k ∉ Utils.alKeys (alRemove l k) := by
  induction l with
  | nil => simp [alRemove, alKeys_nil]
  | cons p t ih =>
    cases p with
    | mk a b =>
      rw [alKeys_cons] at hnd
      by_cases h : a = k
      · subst h
        simpa [alRemove, alKeys_cons] using (List.nodup_cons.mp hnd).1
      · have hk := ih (List.nodup_cons.mp hnd).2
        simp only [alRemove, if_neg h, alKeys_cons, List.mem_cons]
        rintro (rfl | hm)
        · exact h rfl
        · exact hk hm

theorem alKeys_alSet_nodup {α : Type} (l : List (String × α)) (k : String)
    (v : α) (h : (Utils.alKeys l).Nodup) :
    (Utils.alKeys (alSet l k v)).Nodup := by
  by_cases hm : k ∈ Utils.alKeys l
  · rw [alKeys_alSet_mem _ _ _ hm]
    exact h
  · rw [alKeys_alSet_not_mem _ _ _ hm]
    refine List.Nodup.append h (List.nodup_singleton k) ?_
    intro a ha hb
    rw [List.mem_singleton] at hb
    subst hb
    exact hm ha

/-! ### Lemmas about the simple cache of `image_cache.py` -/

namespace ImageCache

theorem SCache.get_set_self (c : SCache) (key sk : String) (v : PyVal) :
    SCache.get (SCache.set c key sk v) key sk = v := by
  unfold SCache.set
  cases hc : alGet c key with
  | none =>
    unfold SCache.get
    rw [alGet_alSet_self]
    simp [alGet]
  | some entry =>
    unfold SCache.get
    rw [alGet_alSet_self]
    simp [alGet_alSet_self]

theorem SCache.get_set_ne (c : SCache) (key sk sk' : String) (v : PyVal)
    (h : sk' ≠ sk) :
    SCache.get (SCache.set c key sk v) key sk' = SCache.get c key sk' := by
  unfold SCache.set
  cases hc : alGet c key with
  | none =>
    unfold SCache.get
    rw [alGet_alSet_self, hc]
    simp [alGet, Ne.symm h]
  | some entry =>
    unfold SCache.get
    rw [alGet_alSet_self, hc]
    dsimp only
    rw [alGet_alSet_ne _ _ _ _ h]

/-- The request headers sent by `get` do not depend on the response. -/
theorem FileFetchAndCache.get_requestHeaders (md5 : List Nat → List Nat)
    (c : SCache) (host URL : String) (resp : Response) :
    (FileFetchAndCache.get md5 c host URL resp).requestHeaders =
      FileFetchAndCache.requestHeadersFor c URL := by
  unfold FileFetchAndCache.get
  by_cases h200 : resp.status = 200
  · rw [if_pos h200]
  · rw [if_neg h200]
    by_cases h304 : resp.status = 304
    · rw [if_pos h304]
    · rw [if_neg h304]

/-- Branch characterization: a 200 response. -/
theorem FileFetchAndCache.get_200 (md5 : List Nat → List Nat) (c : SCache)
    (host URL : String) (resp : Response) (h : resp.status = 200) :
    FileFetchAndCache.get md5 c host URL resp =
      ⟨FileFetchAndCache.requestHeadersFor c URL,
       SCache.set
         (SCache.set
           (SCache.set
             (SCache.set c URL "ETag" (pyOfHeader resp.etag))
             URL "Last-Modified" (pyOfHeader resp.lastModified))
           URL "file_bytes" (PyVal.bytes resp.body))
         URL "file_hash" (PyVal.bytes (md5 resp.body)),
       true, false, PyVal.bytes resp.body⟩ := by
  unfold FileFetchAndCache.get
  rw [if_pos h]

/-- Branch characterization: a 304 response. -/
theorem FileFetchAndCache.get_304 (md5 : List Nat → List Nat) (c : SCache)
    (host URL : String) (resp : Response) (h200 : resp.status ≠ 200)
    (h304 : resp.status = 304) :
    FileFetchAndCache.get md5 c host URL resp =
      ⟨FileFetchAndCache.requestHeadersFor c URL,
       SCache.set (SCache.set c URL "ETag" (pyOfHeader resp.etag))
         URL "Last-Modified" (pyOfHeader resp.lastModified),
       true, true,
       SCache.get
         (SCache.set (SCache.set c URL "ETag" (pyOfHeader resp.etag))
           URL "Last-Modified" (pyOfHeader resp.lastModified))
         URL "file_bytes"⟩ := by
  unfold FileFetchAndCache.get
  rw [if_neg h200, if_pos h304]

/-- Branch characterization: any status other than 200 and 304. -/
theorem FileFetchAndCache.get_other (md5 : List Nat → List Nat) (c : SCache)
    (host URL : String) (resp : Response) (h200 : resp.status ≠ 200)
    (h304 : resp.status ≠ 304) :
    FileFetchAndCache.get md5 c host URL resp =
      ⟨FileFetchAndCache.requestHeadersFor c URL,
       SCache.set (SCache.set c URL "ETag" (pyOfHeader resp.etag))
         URL "Last-Modified" (pyOfHeader resp.lastModified),
       false, false, PyVal.none⟩ := by
  unfold FileFetchAndCache.get
  rw [if_neg h200, if_neg h304]

end ImageCache

/-! ### Claims about the fetcher (`image_cache.py`) -/

open ImageCache in
/-- Claim C8: for every call to the fetcher's `get`, the conditional
request headers `If-None-Match` and `If-Modified-Since` are attached if
and only if both the `ETag` and the `Last-Modified` validators are
present (non-`None`) in the cache for that resource; if either is
missing, the request is sent with no conditional headers. -/
theorem C8_theorem (md5 : List Nat → List Nat) (c : SCache)
    (host URL : String) (resp : Response) :
    ((SCache.get c URL "ETag" ≠ PyVal.none ∧
      SCache.get c URL "Last-Modified" ≠ PyVal.none) →
      (FileFetchAndCache.get md5 c host URL resp).requestHeaders =
        [("If-None-Match", SCache.get c URL "ETag"),
         ("If-Modified-Since", SCache.get c URL "Last-Modified")]) ∧
    ((SCache.get c URL "ETag" = PyVal.none ∨
      SCache.get c URL "Last-Modified" = PyVal.none) →
      (FileFetchAndCache.get md5 c host URL resp).requestHeaders = []) := by
  rw [FileFetchAndCache.get_requestHeaders]
  unfold FileFetchAndCache.requestHeadersFor
  constructor
  · intro h
    rw [if_pos h]
  · intro h
    rw [if_neg]
    rintro ⟨h1, h2⟩
    rcases h with h | h
    · exact h1 h
    · exact h2 h

open ImageCache in
/-- Witness for C8 at concrete inputs: with both validators cached the
headers are attached, and with an empty cache they are not. -/
theorem C8_witness :
    (FileFetchAndCache.get (fun b => b)
        [("u", [("ETag", PyVal.str "e"), ("Last-Modified", PyVal.str "m")])]
        "h" "u" ⟨304, Option.none, Option.none, []⟩).requestHeaders =
      [("If-None-Match", PyVal.str "e"), ("If-Modified-Since", PyVal.str "m")] ∧
    (FileFetchAndCache.get (fun b => b) [] "h" "u"
        ⟨200, Option.none, Option.none, []⟩).requestHeaders = [] := by
  constructor
  · exact (C8_theorem (fun b => b)
      [("u", [("ETag", PyVal.str "e"), ("Last-Modified", PyVal.str "m")])]
      "h" "u" ⟨304, Option.none, Option.none, []⟩).1 (by decide)
  · exact (C8_theorem (fun b => b) [] "h" "u"
      ⟨200, Option.none, Option.none, []⟩).2 (by decide)

open ImageCache in
/-- Claim C9: on a 200 response the fetcher returns success, not from
cache, with the response body, and stores the body and its fingerprint
in the cache; on any status other than 200 and 304 it returns
`success = false`, `fromCache = false` and an absent body. -/
theorem C9_theorem (md5 : List Nat → List Nat) (c : SCache)
    (host URL : String) (resp : Response) :
    (resp.status = 200 →
      (FileFetchAndCache.get md5 c host URL resp).success = true ∧
      (FileFetchAndCache.get md5 c host URL resp).fromCache = false ∧
      (FileFetchAndCache.get md5 c host URL resp).fileBytes =
        PyVal.bytes resp.body ∧
      SCache.get (FileFetchAndCache.get md5 c host URL resp).cache URL
        "file_bytes" = PyVal.bytes resp.body ∧
      SCache.get (FileFetchAndCache.get md5 c host URL resp).cache URL
        "file_hash" = PyVal.bytes (md5 resp.body)) ∧
    (resp.status ≠ 200 → resp.status ≠ 304 →
      (FileFetchAndCache.get md5 c host URL resp).success = false ∧
      (FileFetchAndCache.get md5 c host URL resp).fromCache = false ∧
      (FileFetchAndCache.get md5 c host URL resp).fileBytes = PyVal.none) := by
  constructor
  · intro h200
    rw [FileFetchAndCache.get_200 md5 c host URL resp h200]
    refine ⟨rfl, rfl, rfl, ?_, ?_⟩
    · show SCache.get (SCache.set _ URL "file_hash" _) URL "file_bytes" = _
      rw [SCache.get_set_ne _ _ _ _ _ (by decide)]
      exact SCache.get_set_self _ _ _ _
    · exact SCache.get_set_self _ _ _ _
  · intro h200 h304
    rw [FileFetchAndCache.get_other md5 c host URL resp h200 h304]
    exact ⟨rfl, rfl, rfl⟩

open ImageCache in
/-- Witness for C9 at concrete inputs: a 200 response succeeds and
stores the body, a 404 response fails with an absent body. -/
theorem C9_witness :
    (FileFetchAndCache.get (fun b => b) [] "h" "u"
        ⟨200, Option.none, Option.none, [7]⟩).fileBytes = PyVal.bytes [7] ∧
    (FileFetchAndCache.get (fun b => b) [] "h" "u"
        ⟨404, Option.none, Option.none, []⟩).success = false := by
  constructor
  · exact ((C9_theorem (fun b => b) [] "h" "u"
      ⟨200, Option.none, Option.none, [7]⟩).1 rfl).2.2.1
  · exact ((C9_theorem (fun b => b) [] "h" "u"
      ⟨404, Option.none, Option.none, []⟩).2 (by decide) (by decide)).1

open ImageCache in
/-- Counterexample to claim C1 as stated: with an empty cache (so no
`Body` was ever cached for `"u"`), a 304 response is returned as
`success = true` with an absent body — it is not surfaced as a distinct
failure. -/
theorem C1_counterexample :
    SCache.get ([] : SCache) "u" "file_bytes" = PyVal.none ∧
    (FileFetchAndCache.get (fun b => b) [] "h" "u"
        ⟨304, Option.none, Option.none, []⟩).success = true ∧
    (FileFetchAndCache.get (fun b => b) [] "h" "u"
        ⟨304, Option.none, Option.none, []⟩).fileBytes = PyVal.none := by
  decide

open ImageCache in
/-- Claim C1 as amended: when the transport returns status 304 and no
body was previously cached for the resource, the fetcher returns
`success = true`, `fromCache = true` and an absent body; the
inconsistency is not surfaced distinctly from an ordinary cache hit. -/
theorem C1_theorem (md5 : List Nat → List Nat) (c : SCache)
    (host URL : String) (resp : Response) (h304 : resp.status = 304)
    (hb : SCache.get c URL "file_bytes" = PyVal.none) :
    (FileFetchAndCache.get md5 c host URL resp).success = true ∧
    (FileFetchAndCache.get md5 c host URL resp).fromCache = true ∧
    (FileFetchAndCache.get md5 c host URL resp).fileBytes = PyVal.none := by
  have h200 : resp.status ≠ 200 := by
    rw [h304]
    decide
  rw [FileFetchAndCache.get_304 md5 c host URL resp h200 h304]
  refine ⟨rfl, rfl, ?_⟩
  show SCache.get (SCache.set _ URL "Last-Modified" _) URL "file_bytes" = _
  rw [SCache.get_set_ne _ _ _ _ _ (by decide),
    SCache.get_set_ne _ _ _ _ _ (by decide), hb]

open ImageCache in
/-- Witness for C1 (amended) at a concrete input: a cache that holds
validators but no body, receiving a 304. -/
theorem C1_witness :
    (FileFetchAndCache.get (fun b => b)
        [("u", [("ETag", PyVal.str "e"), ("Last-Modified", PyVal.str "m")])]
        "h" "u" ⟨304, Option.some "e2", Option.none, []⟩).fileBytes =
      PyVal.none :=
  (C1_theorem (fun b => b)
    [("u", [("ETag", PyVal.str "e"), ("Last-Modified", PyVal.str "m")])]
    "h" "u" ⟨304, Option.some "e2", Option.none, []⟩ rfl (by decide)).2.2

open ImageCache in
/-- Counterexample to claim C2 as stated: a cached `ETag` validator
(`"abc"`) is overwritten with the absent value when the 304 response
omits the `ETag` header. -/
theorem C2_counterexample :
    SCache.get [("u", [("ETag", PyVal.str "abc")])] "u" "ETag" =
      PyVal.str "abc" ∧
    SCache.get
      (FileFetchAndCache.get (fun b => b) [("u", [("ETag", PyVal.str "abc")])]
        "h" "u" ⟨304, Option.none, Option.none, []⟩).cache "u" "ETag" =
      PyVal.none := by
  decide

open ImageCache in
/-- Claim C2 as amended: the fetcher always writes the response's
`ETag` and `Last-Modified` header values back into the cache —
including the absent value `None` when the response omits the header,
which overwrites any previously cached validator. -/
theorem C2_theorem (md5 : List Nat → List Nat) (c : SCache)
    (host URL : String) (resp : Response) :
    SCache.get (FileFetchAndCache.get md5 c host URL resp).cache URL "ETag" =
      pyOfHeader resp.etag ∧
    SCache.get (FileFetchAndCache.get md5 c host URL resp).cache URL
      "Last-Modified" = pyOfHeader resp.lastModified := by
  by_cases h200 : resp.status = 200
  · rw [FileFetchAndCache.get_200 md5 c host URL resp h200]
    constructor
    · show SCache.get (SCache.set _ URL "file_hash" _) URL "ETag" = _
      rw [SCache.get_set_ne _ _ _ _ _ (by decide),
        SCache.get_set_ne _ _ _ _ _ (by decide),
        SCache.get_set_ne _ _ _ _ _ (by decide)]
      exact SCache.get_set_self _ _ _ _
    · show SCache.get (SCache.set _ URL "file_hash" _) URL "Last-Modified" = _
      rw [SCache.get_set_ne _ _ _ _ _ (by decide),
        SCache.get_set_ne _ _ _ _ _ (by decide)]
      exact SCache.get_set_self _ _ _ _
  · by_cases h304 : resp.status = 304
    · rw [FileFetchAndCache.get_304 md5 c host URL resp h200 h304]
      constructor
      · show SCache.get (SCache.set _ URL "Last-Modified" _) URL "ETag" = _
        rw [SCache.get_set_ne _ _ _ _ _ (by decide)]
        exact SCache.get_set_self _ _ _ _
      · exact SCache.get_set_self _ _ _ _
    · rw [FileFetchAndCache.get_other md5 c host URL resp h200 h304]
      constructor
      · show SCache.get (SCache.set _ URL "Last-Modified" _) URL "ETag" = _
        rw [SCache.get_set_ne _ _ _ _ _ (by decide)]
        exact SCache.get_set_self _ _ _ _
      · exact SCache.get_set_self _ _ _ _

/-! ### Lemmas about the bounded cache of `src/utils/cache.py` -/

namespace Utils

/-- Full case analysis of `__check_size_and_evict`: enough space means
no change; no space and an empty LRU list means no change (defensive
no-op); otherwise the tail of the LRU list is evicted wholesale. -/
theorem Cache.check_size_and_evict_spec (c : Cache) (v : List Nat) :
    (c.current_bytes + v.length < c.max_bytes →
      c.check_size_and_evict v = c) ∧
    (¬(c.current_bytes + v.length < c.max_bytes) → c.lru = [] →
      c.check_size_and_evict v = c) ∧
    (∀ t : String, ¬(c.current_bytes + v.length < c.max_bytes) →
      c.lru.getLast? = Option.some t →
      c.check_size_and_evict v =
        { cache := alRemove c.cache t,
          lru := (c.lru.dropLast).erase t,
          max_bytes := c.max_bytes,
          current_bytes :=
            c.current_bytes - entryBytes ((alGet c.cache t).getD []) }) := by
  refine ⟨?_, ?_, ?_⟩
  · intro h
    unfold Cache.check_size_and_evict
    rw [if_pos h]
  · intro h hl
    unfold Cache.check_size_and_evict Cache.get_LRU
    rw [if_neg h, hl]
    rfl
  · intro t h ht
    unfold Cache.check_size_and_evict Cache.get_LRU Cache.remove_from_LRU
    rw [if_neg h, ht]

/-- `__add_head_to_LRU` only moves `key` to the front of the deque. -/
theorem Cache.add_head_to_LRU_spec (c : Cache) (k : String) :
    c.add_head_to_LRU k = { c with lru := k :: c.lru.erase k } := rfl

/-- `set` with a non-`None` value when, after the eviction check, the
key is not in the dict: a fresh entry is created. -/
theorem Cache.set_some_fresh (c : Cache) (k sk : String) (v : List Nat)
    (hk : alGet (c.check_size_and_evict v).cache k = Option.none) :
    c.set k sk (Option.some v) =
      { cache := alSet (c.check_size_and_evict v).cache k [(sk, v)],
        lru := k :: (c.check_size_and_evict v).lru.erase k,
        max_bytes := (c.check_size_and_evict v).max_bytes,
        current_bytes :=
          (c.check_size_and_evict v).current_bytes + v.length } := by
  simp only [Cache.set, hk, Cache.add_head_to_LRU, Cache.remove_from_LRU]

/-- `set` with a non-`None` value when the key exists but the subkey is
fresh: the subkey is added and its bytes accounted. -/
theorem Cache.set_some_new_subkey (c : Cache) (k sk : String) (v : List Nat)
    (entry : Entry)
    (hk : alGet (c.check_size_and_evict v).cache k = Option.some entry)
    (hsk : alGet entry sk = Option.none) :
    c.set k sk (Option.some v) =
      { cache := alSet (c.check_size_and_evict v).cache k (alSet entry sk v),
        lru := k :: (c.check_size_and_evict v).lru.erase k,
        max_bytes := (c.check_size_and_evict v).max_bytes,
        current_bytes :=
          (c.check_size_and_evict v).current_bytes + v.length } := by
  simp only [Cache.set, hk, hsk, Cache.add_head_to_LRU, Cache.remove_from_LRU]

/-- `set` with a non-`None` value overwriting an existing subkey: the
old value's bytes are recovered before the new value's are added. -/
theorem Cache.set_some_overwrite (c : Cache) (k sk : String) (v : List Nat)
    (entry : Entry) (old : List Nat)
    (hk : alGet (c.check_size_and_evict v).cache k = Option.some entry)
    (hsk : alGet entry sk = Option.some old) :
    c.set k sk (Option.some v) =
      { cache := alSet (c.check_size_and_evict v).cache k (alSet entry sk v),
        lru := k :: (c.check_size_and_evict v).lru.erase k,
        max_bytes := (c.check_size_and_evict v).max_bytes,
        current_bytes :=
          (c.check_size_and_evict v).current_bytes - old.length +
            v.length } := by
  simp only [Cache.set, hk, hsk, Cache.add_head_to_LRU, Cache.remove_from_LRU]

/-- `get` on an unknown key: a miss, the state is unchanged. -/
theorem Cache.get_miss_key (c : Cache) (k sk : String)
    (hk : alGet c.cache k = Option.none) :
    c.get k sk = (Option.none, c) := by
  simp only [Cache.get, hk]

/-- `get` on a known key but unknown subkey: a miss, unchanged state. -/
theorem Cache.get_miss_subkey (c : Cache) (k sk : String) (entry : Entry)
    (hk : alGet c.cache k = Option.some entry)
    (hsk : alGet entry sk = Option.none) :
    c.get k sk = (Option.none, c) := by
  simp only [Cache.get, hk, hsk]

/-- `get` on a hit: returns the value and moves the key to the front of
the LRU deque. -/
theorem Cache.get_hit (c : Cache) (k sk : String) (entry : Entry)
    (v : List Nat) (hk : alGet c.cache k = Option.some entry)
    (hsk : alGet entry sk = Option.some v) :
    c.get k sk = (Option.some v, { c with lru := k :: c.lru.erase k }) := by
  simp only [Cache.get, hk, hsk, Cache.add_head_to_LRU,
    Cache.remove_from_LRU]

/-- After `set(key, subkey, v)` with a non-`None` value, the cache dict
holds an entry for `key` whose `subkey` maps to `v` (whether the key
was fresh, the subkey was fresh, or a value was overwritten — and even
if the eviction removed the key itself first). -/
theorem Cache.set_stores (c : Cache) (k sk : String) (v : List Nat) :
    ∃ E : Entry, alGet (c.set k sk (Option.some v)).cache k = Option.some E ∧
      alGet E sk = Option.some v := by
  cases hk : alGet (c.check_size_and_evict v).cache k with
  | none =>
    refine ⟨[(sk, v)], ?_, by simp [alGet]⟩
    rw [Cache.set_some_fresh c k sk v hk]
    exact alGet_alSet_self _ _ _
  | some entry =>
    cases hsk : alGet entry sk with
    | none =>
      refine ⟨alSet entry sk v, ?_, alGet_alSet_self _ _ _⟩
      rw [Cache.set_some_new_subkey c k sk v entry hk hsk]
      exact alGet_alSet_self _ _ _
    | some old =>
      refine ⟨alSet entry sk v, ?_, alGet_alSet_self _ _ _⟩
      rw [Cache.set_some_overwrite c k sk v entry old hk hsk]
      exact alGet_alSet_self _ _ _

end Utils

open Utils in
/-- Claim C6: calling `set` with an absent (`None`) value is a silent
no-op — the state (including `current_bytes`, the stored entries and
the recency list) is completely unchanged, so no eviction happens. -/
theorem C6_theorem (c : Cache) (key subkey : String) :
    c.set key subkey Option.none = c := rfl

open Utils in
/-- Counterexample to claim C7 as stated: a bounded cache constructed
with a zero byte budget is not rejected — construction succeeds and the
cache operates at runtime (here an insertion into the budget-0 cache
runs the eviction check, finds nothing to evict, and stores the value
anyway). -/
theorem C7_counterexample :
    (Cache.init 0).max_bytes = 0 ∧
    (Cache.init 0).current_bytes = 0 ∧
    ((Cache.init 0).set "k" "s" (Option.some [7])).current_bytes = 1 ∧
    ((Cache.init 0).set "k" "s" (Option.some [7])).cache =
      [("k", [("s", [7])])] := by
  decide

open Utils in
/-- Claim C7 as amended: construction performs no validation of the
byte budget — any `max_bytes`, zero and negative included, is accepted
and yields an empty cache with that budget; failures are never raised
at construction time. -/
theorem C7_theorem (max_bytes : Int) :
    Cache.init max_bytes =
      { cache := [], lru := [], max_bytes := max_bytes,
        current_bytes := 0 } := rfl

open Utils in
/-- Claim C10: a reachable state in which `set(k, sk, v)` evicts the
very key `k` being written.  With a 10-byte budget, after
`set("a","s1",5 bytes)` the insertion of `set("a","s2",5 bytes)`
triggers eviction of LRU key `"a"` itself, so afterwards the entry for
`"a"` holds only the new subkey — the old subkey `"s1"` is gone. -/
theorem C10_theorem :
    ((Cache.init 10).set "a" "s1" (Option.some [0, 0, 0, 0, 0])).cache =
      [("a", [("s1", [0, 0, 0, 0, 0])])] ∧
    (((Cache.init 10).set "a" "s1" (Option.some [0, 0, 0, 0, 0])).set
        "a" "s2" (Option.some [1, 1, 1, 1, 1])).cache =
      [("a", [("s2", [1, 1, 1, 1, 1])])] ∧
    (((Cache.init 10).set "a" "s1" (Option.some [0, 0, 0, 0, 0])).set
        "a" "s2" (Option.some [1, 1, 1, 1, 1])).current_bytes = 5 ∧
    (((Cache.init 10).set "a" "s1" (Option.some [0, 0, 0, 0, 0])).set
        "a" "s2" (Option.some [1, 1, 1, 1, 1])).lru = ["a"] := by
  decide

open Utils in
/-- Counterexample to claim C5 as stated: two sets of the same
`(key, subkey)` with 1-byte values (`L1 = L2 = 1`) change
`current_bytes` by `1` relative to before the first set, not by
`L2 - L1 = 0`. -/
theorem C5_counterexample :
    (Cache.init 100).current_bytes = 0 ∧
    (Cache.init 100).current_bytes + ([3] : List Nat).length <
      (Cache.init 100).max_bytes ∧
    ((Cache.init 100).set "k" "s" (Option.some [3])).current_bytes +
      ([4] : List Nat).length <
      ((Cache.init 100).set "k" "s" (Option.some [3])).max_bytes ∧
    (((Cache.init 100).set "k" "s" (Option.some [3])).set "k" "s"
        (Option.some [4])).current_bytes = 1 ∧
    ((1 : Int) ≠ 0 + (1 - 1)) := by
  decide

open Utils in
/-- Claim C5 as amended: with values of lengths `L1` then `L2` written
to the same `(key, subkey)` and neither call triggering eviction, the
second `set` changes `current_bytes` by exactly `L2 - L1` relative to
its value after the first `set` — the old value's length is subtracted
before the new one is added, with no leak or double-count.  (Relative
to before the first set the change is `L2` when the subkey was
previously absent.) -/
theorem C5_theorem (c : Cache) (k sk : String) (v1 v2 : List Nat)
    (h1 : c.current_bytes + v1.length < c.max_bytes)
    (h2 : (c.set k sk (Option.some v1)).current_bytes + v2.length <
      (c.set k sk (Option.some v1)).max_bytes) :
    ((c.set k sk (Option.some v1)).set k sk (Option.some v2)).current_bytes =
      (c.set k sk (Option.some v1)).current_bytes + v2.length - v1.length := by
  obtain ⟨E, hE, hEv⟩ := Cache.set_stores c k sk v1
  have hev2 : (c.set k sk (Option.some v1)).check_size_and_evict v2 =
      c.set k sk (Option.some v1) :=
    (Cache.check_size_and_evict_spec _ v2).1 h2
  rw [Cache.set_some_overwrite _ _ _ _ E v1 (by rw [hev2]; exact hE) hEv,
    hev2]
  dsimp only
  ring

open Utils in
/-- Witness for C5 (amended) at concrete inputs: overwriting a 2-byte
value with a 3-byte value moves `current_bytes` from 2 to 3. -/
theorem C5_witness :
    (((Cache.init 100).set "k" "s" (Option.some [1, 2])).set "k" "s"
        (Option.some [1, 2, 3])).current_bytes =
      ((Cache.init 100).set "k" "s" (Option.some [1, 2])).current_bytes +
        ([1, 2, 3] : List Nat).length - ([1, 2] : List Nat).length :=
  C5_theorem (Cache.init 100) "k" "s" [1, 2] [1, 2, 3] (by decide) (by decide)

/-! ### The byte-accounting invariant (claim C3) -/

namespace Utils

/-- The eviction check preserves `current_bytes = cacheBytes`. -/
theorem Cache.check_size_and_evict_bytesInv (c : Cache) (v : List Nat)
    (h : c.current_bytes = cacheBytes c.cache) :
    (c.check_size_and_evict v).current_bytes =
      cacheBytes (c.check_size_and_evict v).cache := by
  by_cases hfit : c.current_bytes + v.length < c.max_bytes
  · rw [(Cache.check_size_and_evict_spec c v).1 hfit]
    exact h
  · cases hl : c.lru.getLast? with
    | none =>
      rw [(Cache.check_size_and_evict_spec c v).2.1 hfit
        (List.getLast?_eq_none_iff.mp hl)]
      exact h
    | some t =>
      rw [(Cache.check_size_and_evict_spec c v).2.2 t hfit hl]
      dsimp only
      rw [h]
      unfold cacheBytes
      rw [alBytes_alRemove]
      cases hg : alGet c.cache t <;> simp [hg, entryBytes, alBytes]

/-- Every single operation preserves `current_bytes = cacheBytes`. -/
theorem applyOp_bytesInv (c : Cache) (op : Op)
    (h : c.current_bytes = cacheBytes c.cache) :
    (applyOp c op).current_bytes = cacheBytes (applyOp c op).cache := by
  cases op with
  | clear => simp [applyOp, Cache.clear, cacheBytes, alBytes]
  | get k sk =>
    show ((c.get k sk).2).current_bytes = cacheBytes ((c.get k sk).2).cache
    cases hk : alGet c.cache k with
    | none => rw [Cache.get_miss_key c k sk hk]; exact h
    | some entry =>
      cases hsk : alGet entry sk with
      | none => rw [Cache.get_miss_subkey c k sk entry hk hsk]; exact h
      | some v => rw [Cache.get_hit c k sk entry v hk hsk]; exact h
  | set k sk val =>
    cases val with
    | none => exact h
    | some v =>
      have h1 : (c.check_size_and_evict v).current_bytes =
          cacheBytes (c.check_size_and_evict v).cache :=
        Cache.check_size_and_evict_bytesInv c v h
      show (c.set k sk (Option.some v)).current_bytes =
        cacheBytes (c.set k sk (Option.some v)).cache
      cases hk : alGet (c.check_size_and_evict v).cache k with
      | none =>
        have hc : cacheBytes
            (alSet (c.check_size_and_evict v).cache k [(sk, v)]) =
            cacheBytes (c.check_size_and_evict v).cache +
              entryBytes [(sk, v)] := by
          unfold cacheBytes
          rw [alBytes_alSet, hk]
          simp
        have he : entryBytes [(sk, v)] = (v.length : Int) := by
          simp [entryBytes, alBytes]
        rw [Cache.set_some_fresh c k sk v hk]
        dsimp only
        rw [hc, he, h1]
      | some entry =>
        cases hsk : alGet entry sk with
        | none =>
          have hent2 : entryBytes (alSet entry sk v) =
              entryBytes entry + (v.length : Int) := by
            unfold entryBytes
            rw [alBytes_alSet, hsk]
            simp
          have hc : cacheBytes
              (alSet (c.check_size_and_evict v).cache k
                (alSet entry sk v)) =
              cacheBytes (c.check_size_and_evict v).cache +
                entryBytes (alSet entry sk v) - entryBytes entry := by
            unfold cacheBytes
            rw [alBytes_alSet, hk]
            simp
          rw [Cache.set_some_new_subkey c k sk v entry hk hsk]
          dsimp only
          rw [hc, hent2, h1]
          ring
        | some old =>
          have hent2 : entryBytes (alSet entry sk v) =
              entryBytes entry + (v.length : Int) - (old.length : Int) := by
            unfold entryBytes
            rw [alBytes_alSet, hsk]
            simp
          have hc : cacheBytes
              (alSet (c.check_size_and_evict v).cache k
                (alSet entry sk v)) =
              cacheBytes (c.check_size_and_evict v).cache +
                entryBytes (alSet entry sk v) - entryBytes entry := by
            unfold cacheBytes
            rw [alBytes_alSet, hk]
            simp
          rw [Cache.set_some_overwrite c k sk v entry old hk hsk]
          dsimp only
          rw [hc, hent2, h1]
          ring

/-- The invariant holds along any operation sequence. -/
theorem applyOps_bytesInv (ops : List Op) :
    ∀ c : Cache, c.current_bytes = cacheBytes c.cache →
      (applyOps c ops).current_bytes = cacheBytes (applyOps c ops).cache := by
  induction ops with
  | nil => exact fun c h => h
  | cons op t ih => exact fun c h => ih _ (applyOp_bytesInv c op h)

end Utils

open Utils in
/-- Claim C3: starting from an empty bounded cache, after every
sequence of `set`/`get`/`clear` operations `current_bytes` equals the
sum over all cached keys of the byte-lengths of their stored subkey
values; and the bytes recovered when a key is evicted equal the sum of
the byte-lengths of that key's subkey values. -/
theorem C3_theorem (m : Int) (ops : List Op) :
    (applyOps (Cache.init m) ops).current_bytes =
      cacheBytes (applyOps (Cache.init m) ops).cache ∧
    (∀ (c : Cache) (v : List Nat) (t : String) (e : Entry),
      ¬(c.current_bytes + (v.length : Int) < c.max_bytes) →
      c.lru.getLast? = Option.some t →
      alGet c.cache t = Option.some e →
      (c.check_size_and_evict v).current_bytes =
        c.current_bytes - entryBytes e) := by
  constructor
  · exact applyOps_bytesInv ops (Cache.init m) rfl
  · intro c v t e hfit hl hg
    rw [(Cache.check_size_and_evict_spec c v).2.2 t hfit hl]
    dsimp only
    rw [hg]
    rfl

open Utils in
/-- Witness for C3 at concrete inputs: one `set` into an empty cache
keeps the accounting exact, and evicting the key `"a"` of a concrete
full cache recovers exactly its entry's bytes. -/
theorem C3_witness :
    (applyOps (Cache.init 10)
        [Op.set "a" "s" (Option.some [1, 2, 3])]).current_bytes =
      cacheBytes
        (applyOps (Cache.init 10)
          [Op.set "a" "s" (Option.some [1, 2, 3])]).cache ∧
    ((⟨[("a", [("s", [1, 2, 3])])], ["a"], 3, 3⟩ :
        Cache).check_size_and_evict [9]).current_bytes =
      3 - entryBytes [("s", [1, 2, 3])] :=
  ⟨(C3_theorem 10 [Op.set "a" "s" (Option.some [1, 2, 3])]).1,
   (C3_theorem 3 []).2 ⟨[("a", [("s", [1, 2, 3])])], ["a"], 3, 3⟩ [9] "a"
     [("s", [1, 2, 3])] (by decide) (by decide) (by decide)⟩

/-! ### Recency machinery for claim C4 -/

theorem alGet_some_mem {α : Type} (l : List (String × α)) (k : String)
    (e : α) (h : alGet l k = Option.some e) : k ∈ Utils.alKeys l := by
  by_contra hm
  rw [(alGet_eq_none_iff l k).mpr hm] at h
  cases h

theorem self_mem_alKeys_alSet {α : Type} (l : List (String × α))
    (k : String) (v : α) : k ∈ Utils.alKeys (alSet l k v) := by
  by_cases hm : k ∈ Utils.alKeys l
  · rw [alKeys_alSet_mem _ _ _ hm]
    exact hm
  · rw [alKeys_alSet_not_mem _ _ _ hm]
    exact List.mem_append.mpr (Or.inr (List.mem_singleton_self k))

theorem mem_alKeys_alSet_ne {α : Type} (l : List (String × α))
    (k a : String) (v : α) (h : a ≠ k) :
    a ∈ Utils.alKeys (alSet l k v) ↔ a ∈ Utils.alKeys l := by
  by_cases hm : k ∈ Utils.alKeys l
  · rw [alKeys_alSet_mem _ _ _ hm]
  · rw [alKeys_alSet_not_mem _ _ _ hm]
    simp [List.mem_append, h]

/-- A two-element sublist survives erasing an element distinct from
both. -/
theorem pair_sublist_erase (l : List String) (b a x : String)
    (h : List.Sublist [b, a] l) (hb : b ≠ x) (ha : a ≠ x) :
    List.Sublist [b, a] (l.erase x) := by
  induction l with
  | nil => cases h
  | cons c t ih =>
    by_cases hcx : c = x
    · subst hcx
      rw [List.erase_cons_head]
      cases h with
      | cons _ h' => exact h'
      | cons₂ _ h' => exact absurd rfl hb
    · rw [List.erase_cons_tail (by simp [hcx])]
      cases h with
      | cons _ h' => exact List.Sublist.cons c (ih h')
      | cons₂ _ h' =>
        have haa : a ∈ t := List.singleton_sublist.mp h'
        have hae : a ∈ t.erase x := (List.mem_erase_of_ne ha).mpr haa
        exact List.Sublist.cons₂ _ (List.singleton_sublist.mpr hae)

/-- A two-element sublist of `xs ++ [t]` either lives inside `xs`, or
its second element is `t` and its first is in `xs`. -/
theorem pair_sublist_append_last (xs : List String) (t b a : String)
    (h : List.Sublist [b, a] (xs ++ [t])) :
    List.Sublist [b, a] xs ∨ (a = t ∧ b ∈ xs) := by
  rcases List.sublist_append_iff.mp h with ⟨l₁, l₂, heq, h₁, h₂⟩
  rcases List.sublist_singleton.mp h₂ with rfl | rfl
  · left
    rw [List.append_nil] at heq
    rw [← heq] at h₁
    exact h₁
  · right
    cases l₁ with
    | nil => simp at heq
    | cons x xs' =>
      cases xs' with
      | nil =>
        simp only [List.cons_append, List.nil_append, List.cons.injEq] at heq
        obtain ⟨rfl, rfl, -⟩ := heq
        exact ⟨rfl, List.singleton_sublist.mp (by simpa using h₁)⟩
      | cons y ys => simp at heq

namespace Utils

theorem applyOps_append (c : Cache) (l1 l2 : List Op) :
    applyOps c (l1 ++ l2) = applyOps (applyOps c l1) l2 := by
  unfold applyOps
  exact List.foldl_append _ _ _ _

theorem applyOps_cons (c : Cache) (op : Op) (t : List Op) :
    applyOps c (op :: t) = applyOps (applyOp c op) t := rfl

/-- Whatever branch `set` takes, the written key ends up at the front
of the LRU deque. -/
theorem Cache.set_some_lru (c : Cache) (k sk : String) (v : List Nat) :
    (c.set k sk (Option.some v)).lru =
      k :: ((c.check_size_and_evict v).lru.erase k) := by
  cases hk : alGet (c.check_size_and_evict v).cache k with
  | none => rw [Cache.set_some_fresh c k sk v hk]
  | some entry =>
    cases hsk : alGet entry sk with
    | none => rw [Cache.set_some_new_subkey c k sk v entry hk hsk]
    | some old => rw [Cache.set_some_overwrite c k sk v entry old hk hsk]

/-- The eviction check only removes keys from the LRU deque. -/
theorem Cache.check_lru_subset (c : Cache) (v : List Nat) (x : String)
    (h : x ∈ (c.check_size_and_evict v).lru) : x ∈ c.lru := by
  by_cases hfit : c.current_bytes + v.length < c.max_bytes
  · rw [(Cache.check_size_and_evict_spec c v).1 hfit] at h
    exact h
  · cases hl : c.lru.getLast? with
    | none =>
      rw [(Cache.check_size_and_evict_spec c v).2.1 hfit
        (List.getLast?_eq_none_iff.mp hl)] at h
      exact h
    | some t =>
      rw [(Cache.check_size_and_evict_spec c v).2.2 t hfit hl] at h
      dsimp only at h
      exact List.Sublist.mem (List.mem_of_mem_erase h)
        (List.dropLast_sublist c.lru)

/-- An operation that accesses key `b` leaves `b` at the front of the
LRU deque. -/
theorem accessed_head (c : Cache) (op : Op) (b : String)
    (h : opAccessesKey c op b = true) :
    ∃ rest : List String, (applyOp c op).lru = b :: rest := by
  cases op with
  | clear => simp [opAccessesKey] at h
  | set k sk val =>
    simp only [opAccessesKey, Bool.and_eq_true, decide_eq_true_eq,
      Option.isSome_iff_exists] at h
    obtain ⟨rfl, v, rfl⟩ := h
    exact ⟨_, Cache.set_some_lru c k sk v⟩
  | get k sk =>
    simp only [opAccessesKey, Bool.and_eq_true, decide_eq_true_eq,
      Option.isSome_iff_exists] at h
    obtain ⟨rfl, v, hv⟩ := h
    cases hk : alGet c.cache k with
    | none =>
      rw [Cache.get_miss_key c k sk hk] at hv
      cases hv
    | some entry =>
      cases hsk : alGet entry sk with
      | none =>
        rw [Cache.get_miss_subkey c k sk entry hk hsk] at hv
        cases hv
      | some w =>
        show ∃ rest, ((c.get k sk).2).lru = k :: rest
        rw [Cache.get_hit c k sk entry w hk hsk]
        exact ⟨_, rfl⟩

/-- An operation that does not access key `a` cannot introduce `a` into
the LRU deque. -/
theorem mem_lru_of_applyOp (c : Cache) (op : Op) (a : String)
    (hna : opAccessesKey c op a = false)
    (h : a ∈ (applyOp c op).lru) : a ∈ c.lru := by
  cases op with
  | clear => simp [applyOp, Cache.clear] at h
  | set k sk val =>
    cases val with
    | none => exact h
    | some v =>
      have hka : k ≠ a := by
        intro heq
        subst heq
        simp [opAccessesKey] at hna
      have h' : a ∈ (c.set k sk (Option.some v)).lru := h
      rw [Cache.set_some_lru] at h'
      rcases List.mem_cons.mp h' with heq | hmem
      · exact (hka heq.symm).elim
      · exact Cache.check_lru_subset c v a (List.mem_of_mem_erase hmem)
  | get k sk =>
    cases hk : alGet c.cache k with
    | none =>
      have h' : a ∈ ((c.get k sk).2).lru := h
      rw [Cache.get_miss_key c k sk hk] at h'
      exact h'
    | some entry =>
      cases hsk : alGet entry sk with
      | none =>
        have h' : a ∈ ((c.get k sk).2).lru := h
        rw [Cache.get_miss_subkey c k sk entry hk hsk] at h'
        exact h'
      | some v =>
        have hv1 : (c.get k sk).1 = Option.some v := by
          rw [Cache.get_hit c k sk entry v hk hsk]
        have hka : k ≠ a := by
          intro heq
          subst heq
          simp [opAccessesKey, hv1] at hna
        have h' : a ∈ ((c.get k sk).2).lru := h
        rw [Cache.get_hit c k sk entry v hk hsk] at h'
        dsimp only at h'
        rcases List.mem_cons.mp h' with heq | hmem
        · exact (hka heq.symm).elim
        · exact List.mem_of_mem_erase hmem

/-- `noAccessDuring` propagates LRU membership backwards through a
whole operation sequence. -/
theorem mem_lru_of_applyOps (ops : List Op) :
    ∀ (c : Cache) (a : String), noAccessDuring c ops a = true →
      a ∈ (applyOps c ops).lru → a ∈ c.lru := by
  induction ops with
  | nil => exact fun c a _ h => h
  | cons op t ih =>
    intro c a hna h
    simp only [noAccessDuring, Bool.and_eq_true, Bool.not_eq_true'] at hna
    exact mem_lru_of_applyOp c op a hna.1 (ih (applyOp c op) a hna.2 h)

end Utils

namespace Utils

/-- The eviction check preserves the well-formedness invariant. -/
theorem Cache.check_size_and_evict_inv (c : Cache) (v : List Nat)
    (h : Inv c) : Inv (c.check_size_and_evict v) := by
  obtain ⟨hkn, hln, hmem, hb⟩ := h
  have hb' := Cache.check_size_and_evict_bytesInv c v hb
  by_cases hfit : c.current_bytes + v.length < c.max_bytes
  · rw [(Cache.check_size_and_evict_spec c v).1 hfit]
    exact ⟨hkn, hln, hmem, hb⟩
  · cases hl : c.lru.getLast? with
    | none =>
      rw [(Cache.check_size_and_evict_spec c v).2.1 hfit
        (List.getLast?_eq_none_iff.mp hl)]
      exact ⟨hkn, hln, hmem, hb⟩
    | some t =>
      have hne : c.lru ≠ [] := by
        intro hh
        rw [hh] at hl
        cases hl
      have ht : t = c.lru.getLast hne := by
        rw [List.getLast?_eq_getLast c.lru hne] at hl
        exact (Option.some.inj hl).symm
      have hsplit : c.lru.dropLast ++ [t] = c.lru := by
        rw [ht]
        exact List.dropLast_append_getLast hne
      have hnd2 : (c.lru.dropLast ++ [t]).Nodup := by
        rw [hsplit]
        exact hln
      have htd : t ∉ c.lru.dropLast := by
        intro hmem'
        exact (List.nodup_append.mp hnd2).2.2 hmem' (List.mem_singleton_self t)
      have herase : c.lru.dropLast.erase t = c.lru.dropLast :=
        List.erase_of_not_mem htd
      rw [(Cache.check_size_and_evict_spec c v).2.2 t hfit hl] at hb' ⊢
      refine ⟨?_, ?_, ?_, hb'⟩
      · exact List.Nodup.sublist (alKeys_alRemove_sublist _ _) hkn
      · show ((c.lru.dropLast).erase t).Nodup
        rw [herase]
        exact List.Nodup.sublist (List.dropLast_sublist _) hln
      · intro a
        show a ∈ alKeys (alRemove c.cache t) ↔ a ∈ (c.lru.dropLast).erase t
        rw [herase]
        by_cases hat : a = t
        · subst hat
          constructor
          · intro hmem''
            exact absurd hmem'' (not_mem_alKeys_alRemove _ _ hkn)
          · intro hmem''
            exact absurd hmem'' htd
        · rw [mem_alKeys_alRemove _ _ _ hat, hmem a, ← hsplit,
            List.mem_append]
          simp [hat]

/-- Every single operation preserves the well-formedness invariant. -/
theorem applyOp_inv (c : Cache) (op : Op) (h : Inv c) :
    Inv (applyOp c op) := by
  obtain ⟨hkn, hln, hmem, hb⟩ := h
  cases op with
  | clear =>
    refine ⟨?_, ?_, ?_, ?_⟩ <;> simp [applyOp, Cache.clear, alKeys,
      cacheBytes, alBytes]
  | get k sk =>
    cases hk : alGet c.cache k with
    | none =>
      show Inv ((c.get k sk).2)
      rw [Cache.get_miss_key c k sk hk]
      exact ⟨hkn, hln, hmem, hb⟩
    | some entry =>
      cases hsk : alGet entry sk with
      | none =>
        show Inv ((c.get k sk).2)
        rw [Cache.get_miss_subkey c k sk entry hk hsk]
        exact ⟨hkn, hln, hmem, hb⟩
      | some v =>
        show Inv ((c.get k sk).2)
        rw [Cache.get_hit c k sk entry v hk hsk]
        have hkm : k ∈ alKeys c.cache := alGet_some_mem _ _ _ hk
        have hkl : k ∈ c.lru := (hmem k).mp hkm
        refine ⟨hkn, ?_, ?_, hb⟩
        · exact List.nodup_cons.mpr
            ⟨fun hmem' => ((hln.mem_erase_iff).mp hmem').1 rfl,
             List.Nodup.erase k hln⟩
        · intro a
          by_cases hak : a = k
          · subst hak
            simp [hkm]
          · rw [List.mem_cons]
            simp only [hak, false_or]
            rw [List.mem_erase_of_ne hak, hmem a]
  | set k sk val =>
    cases val with
    | none => exact ⟨hkn, hln, hmem, hb⟩
    | some v =>
      obtain ⟨h1kn, h1ln, h1mem, h1b⟩ :=
        Cache.check_size_and_evict_inv c v ⟨hkn, hln, hmem, hb⟩
      have hb' := applyOp_bytesInv c (Op.set k sk (Option.some v)) hb
      show Inv (c.set k sk (Option.some v))
      have hlru := Cache.set_some_lru c k sk v
      have hlnodup : ((c.set k sk (Option.some v)).lru).Nodup := by
        rw [hlru]
        exact List.nodup_cons.mpr
          ⟨fun hmem' => ((h1ln.mem_erase_iff).mp hmem').1 rfl,
           List.Nodup.erase k h1ln⟩
      have hmem' : ∀ a : String,
          a ∈ alKeys (c.set k sk (Option.some v)).cache ↔
            a ∈ (c.set k sk (Option.some v)).lru := by
        intro a
        rw [hlru]
        cases hk : alGet (c.check_size_and_evict v).cache k with
        | none =>
          rw [Cache.set_some_fresh c k sk v hk]
          dsimp only
          by_cases hak : a = k
          · subst hak
            simp [self_mem_alKeys_alSet]
          · rw [mem_alKeys_alSet_ne _ _ _ _ hak, List.mem_cons]
            simp only [hak, false_or]
            rw [List.mem_erase_of_ne hak, h1mem a]
        | some entry =>
          cases hsk : alGet entry sk with
          | none =>
            rw [Cache.set_some_new_subkey c k sk v entry hk hsk]
            dsimp only
            by_cases hak : a = k
            · subst hak
              simp [self_mem_alKeys_alSet]
            · rw [mem_alKeys_alSet_ne _ _ _ _ hak, List.mem_cons]
              simp only [hak, false_or]
              rw [List.mem_erase_of_ne hak, h1mem a]
          | some old =>
            rw [Cache.set_some_overwrite c k sk v entry old hk hsk]
            dsimp only
            by_cases hak : a = k
            · subst hak
              simp [self_mem_alKeys_alSet]
            · rw [mem_alKeys_alSet_ne _ _ _ _ hak, List.mem_cons]
              simp only [hak, false_or]
              rw [List.mem_erase_of_ne hak, h1mem a]
      have hknodup : (alKeys (c.set k sk (Option.some v)).cache).Nodup := by
        cases hk : alGet (c.check_size_and_evict v).cache k with
        | none =>
          rw [Cache.set_some_fresh c k sk v hk]
          exact alKeys_alSet_nodup _ _ _ h1kn
        | some entry =>
          cases hsk : alGet entry sk with
          | none =>
            rw [Cache.set_some_new_subkey c k sk v entry hk hsk]
            exact alKeys_alSet_nodup _ _ _ h1kn
          | some old =>
            rw [Cache.set_some_overwrite c k sk v entry old hk hsk]
            exact alKeys_alSet_nodup _ _ _ h1kn
      exact ⟨hknodup, hlnodup, hmem', hb'⟩

/-- The well-formedness invariant holds in every reachable state. -/
theorem applyOps_inv (ops : List Op) :
    ∀ c : Cache, Inv c → Inv (applyOps c ops) := by
  induction ops with
  | nil => exact fun c h => h
  | cons op t ih => exact fun c h => ih _ (applyOp_inv c op h)

/-- The initial state is well-formed. -/
theorem init_inv (m : Int) : Inv (Cache.init m) := by
  refine ⟨?_, ?_, ?_, ?_⟩ <;> simp [Cache.init, alKeys, cacheBytes, alBytes]

end Utils

namespace Utils

/-- The eviction check preserves relative recency order of two keys
when the later one (here `A`) survives it. -/
theorem Cache.check_preserves_order (c : Cache) (v : List Nat)
    (A B : String) (hln : c.lru.Nodup)
    (hord : List.Sublist [B, A] c.lru)
    (hmem : A ∈ (c.check_size_and_evict v).lru) :
    List.Sublist [B, A] (c.check_size_and_evict v).lru := by
  by_cases hfit : c.current_bytes + v.length < c.max_bytes
  · rw [(Cache.check_size_and_evict_spec c v).1 hfit]
    exact hord
  · cases hl : c.lru.getLast? with
    | none =>
      rw [(Cache.check_size_and_evict_spec c v).2.1 hfit
        (List.getLast?_eq_none_iff.mp hl)]
      exact hord
    | some t =>
      have hne : c.lru ≠ [] := by
        intro hh
        rw [hh] at hl
        cases hl
      have ht : t = c.lru.getLast hne := by
        rw [List.getLast?_eq_getLast c.lru hne] at hl
        exact (Option.some.inj hl).symm
      have hsplit : c.lru.dropLast ++ [t] = c.lru := by
        rw [ht]
        exact List.dropLast_append_getLast hne
      have hnd2 : (c.lru.dropLast ++ [t]).Nodup := by
        rw [hsplit]
        exact hln
      have htd : t ∉ c.lru.dropLast := by
        intro hmem'
        exact (List.nodup_append.mp hnd2).2.2 hmem' (List.mem_singleton_self t)
      have herase : c.lru.dropLast.erase t = c.lru.dropLast :=
        List.erase_of_not_mem htd
      rw [(Cache.check_size_and_evict_spec c v).2.2 t hfit hl] at hmem ⊢
      dsimp only at hmem ⊢
      rw [herase] at hmem ⊢
      have hord' : List.Sublist [B, A] (c.lru.dropLast ++ [t]) := by
        rw [hsplit]
        exact hord
      rcases pair_sublist_append_last _ _ _ _ hord' with h1 | ⟨heq, hB⟩
      · exact h1
      · subst heq
        exact absurd hmem htd

/-- Moving a third key `k` to the front preserves the relative order of
`B` before `A`; if `k = B` the order is re-established at the head. -/
theorem cons_erase_preserves_order (l : List String) (k A B : String)
    (hAB : A ≠ B) (hkA : k ≠ A)
    (hord : List.Sublist [B, A] l)
    (hmem : A ∈ k :: l.erase k) :
    List.Sublist [B, A] (k :: l.erase k) := by
  by_cases hkB : k = B
  · subst hkB
    have hA : A ∈ l.erase k := by
      rcases List.mem_cons.mp hmem with heq | hm
      · exact ((Ne.symm hkA) heq).elim
      · exact hm
    exact List.Sublist.cons₂ _ (List.singleton_sublist.mpr hA)
  · have hsub : List.Sublist [B, A] (l.erase k) :=
      pair_sublist_erase l B A k hord (fun hh => hkB hh.symm) (Ne.symm hkA)
    exact List.Sublist.cons k hsub

/-- One operation that does not access `A` keeps `B` strictly more
recent than `A` (as long as `A` survives the operation). -/
theorem step_preserves_order (c : Cache) (op : Op) (A B : String)
    (hInv : Inv c) (hAB : A ≠ B)
    (hord : List.Sublist [B, A] c.lru)
    (hna : opAccessesKey c op A = false)
    (hmem : A ∈ (applyOp c op).lru) :
    List.Sublist [B, A] (applyOp c op).lru := by
  obtain ⟨hkn, hln, hmemiff, hb⟩ := hInv
  cases op with
  | clear => simp [applyOp, Cache.clear] at hmem
  | set k sk val =>
    cases val with
    | none => exact hord
    | some v =>
      have hka : k ≠ A := by
        intro heq
        subst heq
        simp [opAccessesKey] at hna
      have hm' : A ∈ (c.set k sk (Option.some v)).lru := hmem
      rw [Cache.set_some_lru] at hm'
      show List.Sublist [B, A] ((c.set k sk (Option.some v)).lru)
      rw [Cache.set_some_lru]
      have hmem2 : A ∈ (c.check_size_and_evict v).lru := by
        rcases List.mem_cons.mp hm' with heq | hm2
        · exact ((Ne.symm hka) heq).elim
        · exact List.mem_of_mem_erase hm2
      have hord2 := Cache.check_preserves_order c v A B hln hord hmem2
      exact cons_erase_preserves_order _ k A B hAB hka hord2 hm'
  | get k sk =>
    cases hk : alGet c.cache k with
    | none =>
      show List.Sublist [B, A] (((c.get k sk).2).lru)
      rw [Cache.get_miss_key c k sk hk]
      exact hord
    | some entry =>
      cases hsk : alGet entry sk with
      | none =>
        show List.Sublist [B, A] (((c.get k sk).2).lru)
        rw [Cache.get_miss_subkey c k sk entry hk hsk]
        exact hord
      | some v =>
        have hv1 : (c.get k sk).1 = Option.some v := by
          rw [Cache.get_hit c k sk entry v hk hsk]
        have hka : k ≠ A := by
          intro heq
          subst heq
          simp [opAccessesKey, hv1] at hna
        have hm' : A ∈ k :: c.lru.erase k := by
          have hmm : A ∈ ((c.get k sk).2).lru := hmem
          rw [Cache.get_hit c k sk entry v hk hsk] at hmm
          exact hmm
        show List.Sublist [B, A] (((c.get k sk).2).lru)
        rw [Cache.get_hit c k sk entry v hk hsk]
        exact cons_erase_preserves_order c.lru k A B hAB hka hord hm'

/-- `B` stays strictly more recent than `A` along any sequence of
operations that never accesses `A`, as long as `A` stays present. -/
theorem order_preserved_ops (ops : List Op) :
    ∀ c : Cache, Inv c → ∀ A B : String, A ≠ B →
      List.Sublist [B, A] c.lru → noAccessDuring c ops A = true →
      A ∈ (applyOps c ops).lru →
      List.Sublist [B, A] (applyOps c ops).lru := by
  induction ops with
  | nil => exact fun c _ A B _ hord _ _ => hord
  | cons op t ih =>
    intro c hInv A B hAB hord hna hmem
    simp only [noAccessDuring, Bool.and_eq_true, Bool.not_eq_true'] at hna
    have hmem1 : A ∈ (applyOp c op).lru :=
      mem_lru_of_applyOps t (applyOp c op) A hna.2 hmem
    have hord1 := step_preserves_order c op A B hInv hAB hord hna.1 hmem1
    exact ih (applyOp c op) (applyOp_inv c op hInv) A B hAB hord1 hna.2 hmem

end Utils

namespace Utils

/-- When an eviction is triggered in a state whose recency list has `B`
strictly before `A`, the evicted key is the tail of the recency list,
its entire entry leaves the dict and the list, and it is not `B`. -/
theorem Cache.evict_tail_spec (S : Cache) (A B : String)
    (hSln : S.lru.Nodup) (hordS : List.Sublist [B, A] S.lru)
    (v : List Nat)
    (hfull : ¬(S.current_bytes + (v.length : Int) < S.max_bytes)) :
    ∃ t : String, S.lru.getLast? = Option.some t ∧ t ≠ B ∧
      (S.check_size_and_evict v).cache = alRemove S.cache t ∧
      (S.check_size_and_evict v).lru = S.lru.dropLast ∧
      t ∉ (S.check_size_and_evict v).lru ∧
      B ∈ (S.check_size_and_evict v).lru := by
  have hBS : B ∈ S.lru := List.Sublist.mem (List.mem_cons_self B [A]) hordS
  have hne : S.lru ≠ [] := by
    intro hh
    rw [hh] at hBS
    cases hBS
  have hl : S.lru.getLast? = Option.some (S.lru.getLast hne) :=
    List.getLast?_eq_getLast _ hne
  have hsplit : S.lru.dropLast ++ [S.lru.getLast hne] = S.lru :=
    List.dropLast_append_getLast hne
  have hnd2 : (S.lru.dropLast ++ [S.lru.getLast hne]).Nodup := by
    rw [hsplit]
    exact hSln
  have htd : S.lru.getLast hne ∉ S.lru.dropLast := fun hm =>
    (List.nodup_append.mp hnd2).2.2 hm (List.mem_singleton_self _)
  have herase : S.lru.dropLast.erase (S.lru.getLast hne) =
      S.lru.dropLast := List.erase_of_not_mem htd
  have hordapp : List.Sublist [B, A]
      (S.lru.dropLast ++ [S.lru.getLast hne]) := by
    rw [hsplit]
    exact hordS
  have hBd : B ∈ S.lru.dropLast := by
    rcases pair_sublist_append_last _ _ _ _ hordapp with h1 | ⟨heq, hB2⟩
    · exact List.Sublist.mem (List.mem_cons_self B [A]) h1
    · exact hB2
  have htB : S.lru.getLast hne ≠ B := fun heq => htd (heq ▸ hBd)
  have hev := (Cache.check_size_and_evict_spec S v).2.2 _ hfull hl
  refine ⟨S.lru.getLast hne, hl, htB, ?_, ?_, ?_, ?_⟩
  · rw [hev]
  · rw [hev]
    exact herase
  · rw [hev]
    dsimp only
    rw [herase]
    exact htd
  · rw [hev]
    dsimp only
    rw [herase]
    exact hBd

end Utils

open Utils in
/-- Claim C4: starting from an empty bounded cache, run `pre`, then an
operation accessing key `B` (a `set` with a value or a `get` hit), then
`post` in which key `A` is never accessed; if `A` is still present at
the end, then `B` is strictly more recent than `A` in the recency list,
and when an eviction is triggered the evicted key is the one at the
tail of the recency list, its entire entry is removed from the dict and
from the recency list, and it is never `B` — so `A` is evicted before
`B`.  If the recency list is empty, eviction is a no-op. -/
theorem C4_theorem (m : Int) (pre post : List Op) (opB : Op) (A B : String)
    (hAB : A ≠ B)
    (hB : opAccessesKey (applyOps (Cache.init m) pre) opB B = true)
    (hA : noAccessDuring (applyOp (applyOps (Cache.init m) pre) opB) post A
      = true)
    (hAin : A ∈ (applyOps (Cache.init m) (pre ++ opB :: post)).lru) :
    List.Sublist [B, A] (applyOps (Cache.init m) (pre ++ opB :: post)).lru ∧
    (∀ v : List Nat,
      ¬((applyOps (Cache.init m) (pre ++ opB :: post)).current_bytes +
          (v.length : Int) <
        (applyOps (Cache.init m) (pre ++ opB :: post)).max_bytes) →
      ∃ t : String,
        (applyOps (Cache.init m) (pre ++ opB :: post)).lru.getLast? =
          Option.some t ∧
        t ≠ B ∧
        ((applyOps (Cache.init m)
            (pre ++ opB :: post)).check_size_and_evict v).cache =
          alRemove (applyOps (Cache.init m) (pre ++ opB :: post)).cache t ∧
        ((applyOps (Cache.init m)
            (pre ++ opB :: post)).check_size_and_evict v).lru =
          (applyOps (Cache.init m) (pre ++ opB :: post)).lru.dropLast ∧
        t ∉ ((applyOps (Cache.init m)
            (pre ++ opB :: post)).check_size_and_evict v).lru ∧
        B ∈ ((applyOps (Cache.init m)
            (pre ++ opB :: post)).check_size_and_evict v).lru) ∧
    (∀ (d : Cache) (v : List Nat), d.lru = [] →
      d.check_size_and_evict v = d) := by
  have hSdef : applyOps (Cache.init m) (pre ++ opB :: post) =
      applyOps (applyOp (applyOps (Cache.init m) pre) opB) post := by
    rw [applyOps_append]
    rfl
  rw [hSdef] at hAin ⊢
  have hInv1 : Inv (applyOp (applyOps (Cache.init m) pre) opB) :=
    applyOp_inv _ opB (applyOps_inv pre _ (init_inv m))
  have hmem1 : A ∈ (applyOp (applyOps (Cache.init m) pre) opB).lru :=
    mem_lru_of_applyOps post _ A hA hAin
  obtain ⟨rest, hr⟩ := accessed_head (applyOps (Cache.init m) pre) opB B hB
  have hArest : A ∈ rest := by
    rw [hr] at hmem1
    rcases List.mem_cons.mp hmem1 with heq | hm
    · exact (hAB heq).elim
    · exact hm
  have hord1 : List.Sublist [B, A]
      (applyOp (applyOps (Cache.init m) pre) opB).lru := by
    rw [hr]
    exact List.Sublist.cons₂ _ (List.singleton_sublist.mpr hArest)
  have hordS := order_preserved_ops post _ hInv1 A B hAB hord1 hA hAin
  have hInvS : Inv (applyOps (applyOp (applyOps (Cache.init m) pre) opB)
      post) := applyOps_inv post _ hInv1
  refine ⟨hordS, ?_, ?_⟩
  · intro v hfull
    exact Cache.evict_tail_spec _ A B hInvS.2.1 hordS v hfull
  · intro d v hdl
    by_cases hfit : d.current_bytes + v.length < d.max_bytes
    · exact (Cache.check_size_and_evict_spec d v).1 hfit
    · exact (Cache.check_size_and_evict_spec d v).2.1 hfit hdl

open Utils in
/-- Witness for C4 at a concrete trace: set key `"A"`, then set key
`"B"`; both are present and `"B"` is more recent, so `"B"` sits before
`"A"` in the recency list. -/
theorem C4_witness :
    List.Sublist ["B", "A"]
      (applyOps (Cache.init 100)
        ([Op.set "A" "x" (Option.some [0])] ++
          Op.set "B" "x" (Option.some [0]) :: [])).lru :=
  (C4_theorem 100 [Op.set "A" "x" (Option.some [0])] []
    (Op.set "B" "x" (Option.some [0])) "A" "B" (by decide) (by decide)
    (by decide) (by decide)).1
